import Mathlib

/-!
Verification development for the `text2tex` transpiler core
(`src/transpiler.py`, class `LatexTranspiler`).

Modelling conventions (shallow embedding):
* Python `str` is modelled as `List Char`; `str.replace`, `str.split`,
  `str.strip`, f-strings and `'\n'.join` are modelled by explicit list
  functions below.
* Regular expressions used by the source are compiled by hand into
  deterministic scanners.  Python's `\w` (unicode word character) is
  modelled by `isWordChar`, covering ASCII alphanumerics, `_` and the
  Greek block (the only non-ASCII letters occurring in the program's
  data); `\s` and `str.strip()` are modelled over the ASCII whitespace
  characters; `str.lower()` is modelled by `Char.toLower` (ASCII).
* Functions that consume a non-constant number of characters per step
  are written with an explicit fuel argument equal to the input length,
  so that every definition is structurally recursive and computable by
  `decide`/`rfl`.  One step always consumes at least one character, so
  fuel `s.length` is always sufficient.
-/

/-- Convert a string literal to the `List Char` representation. -/
def strL (s : String) : List Char := s.toList

/-- ASCII whitespace, modelling Python's `str.strip()` / `\s` class. -/
def isWs (c : Char) : Bool := c = ' ' || c = '\t' || c = '\n' || c = '\r' || c = '\x0b' || c = '\x0c'

/-- Python `str.strip()` (no arguments): trim whitespace on both ends. -/
def trimWs (l : List Char) : List Char :=
  ((l.dropWhile isWs).reverse.dropWhile isWs).reverse

/-- Python `str.rstrip()`. -/
def dropTrailWs (l : List Char) : List Char := (l.reverse.dropWhile isWs).reverse

/-- Python `str.lstrip()`. -/
def dropLeadWs (l : List Char) : List Char := l.dropWhile isWs

/-- Python `s.startswith(pat)`: `pat` is a prefix of `s`. -/
def listPre : List Char → List Char → Bool
  | [], _ => true
  | _ :: _, [] => false
  | p :: ps, c :: cs => p = c && listPre ps cs

/-- Python `s.endswith(pat)`. -/
def listSuf (pat s : List Char) : Bool := listPre pat.reverse s.reverse

/-- Python `pat in s` (substring containment). -/
def isSubstr (pat : List Char) : List Char → Bool
  | [] => pat = []
  | c :: rest => listPre pat (c :: rest) || isSubstr pat rest

/-- Python `s.strip(chars)`: remove leading and trailing characters drawn from `set`. -/
def pyStripSet (set l : List Char) : List Char :=
  (((l.dropWhile (set.contains ·)).reverse.dropWhile (set.contains ·))).reverse

/-- Python `s.split(sep)` for a one-character separator (keeps empty pieces). -/
def pySplit (sep : Char) : List Char → List (List Char)
  | [] => [[]]
  | c :: rest =>
    match pySplit sep rest with
    | [] => [[c]]
    | h :: t => if c = sep then [] :: h :: t else (c :: h) :: t

/-- Python `s.replace(pat, repl)` (all occurrences, left to right), fuel variant. -/
def replaceAllF : Nat → List Char → List Char → List Char → List Char
  | 0, _, _, s => s
  | _ + 1, _, _, [] => []
  | f + 1, pat, repl, c :: rest =>
    if pat ≠ [] && listPre pat (c :: rest) then
      repl ++ replaceAllF f pat repl ((c :: rest).drop pat.length)
    else
      c :: replaceAllF f pat repl rest

/-- Python `s.replace(pat, repl)`. -/
def replaceAll (pat repl s : List Char) : List Char := replaceAllF s.length pat repl s

/-- Python `s.replace(pat, '', 1)`: delete the first occurrence of `pat`, fuel variant. -/
def replaceFirstF : Nat → List Char → List Char → List Char
  | 0, _, s => s
  | _ + 1, _, [] => []
  | f + 1, pat, c :: rest =>
    if pat ≠ [] && listPre pat (c :: rest) then (c :: rest).drop pat.length
    else c :: replaceFirstF f pat rest

/-- Python `s.replace(pat, '', 1)`. -/
def replaceFirst (pat s : List Char) : List Char := replaceFirstF s.length pat s

/-- Letters as recognised by the source's patterns: ASCII letters plus the
Greek block, modelling Python's unicode letter classification for the
character set relevant to this program. -/
def pyIsLetter (c : Char) : Bool := c.isAlpha || (0x370 ≤ c.val && c.val ≤ 0x3ff)

/-- Python regex `\w`: word character. -/
def isWordChar (c : Char) : Bool := pyIsLetter c || c.isDigit || c = '_'

/-- A `\b` word boundary holds before a word character iff the previous
character (if any) is not a word character. -/
def bndOk : Option Char → Bool
  | none => true
  | some p => !isWordChar p

/-- Maximal runs of characters satisfying `p`, fuel variant. -/
def runsByF (p : Char → Bool) : Nat → List Char → List (List Char)
  | 0, _ => []
  | _ + 1, [] => []
  | f + 1, c :: rest =>
    if p c then (c :: rest.takeWhile p) :: runsByF p f (rest.dropWhile p)
    else runsByF p f rest

/-- Maximal runs of characters satisfying `p`. -/
def runsBy (p : Char → Bool) (l : List Char) : List (List Char) := runsByF p l.length l

/-! ## The Lexicon Store (`LatexTranspiler.__init__`) -/

structure LatexTranspiler where
  section_id : List Char
  subsection_id : List Char
  include_title : Bool
  text_special_chars : List (List Char × List Char)
  math_map : List (List Char × List Char)
  english_anchors : List (List Char)

/-- The escape table for prose (source: `self.text_special_chars`).
Association-list order is the Python dict insertion order. -/
def textSpecialCharsDefault : List (List Char × List Char) :=
  [ (['&'], strL "\\&"), (['%'], strL "\\%"), (['$'], strL "\\$"), (['#'], strL "\\#"),
    (['_'], strL "\\_"), (['{'], strL "\\\x7b"), (['}'], strL "\\\x7d"),
    (['~'], strL "\\textasciitilde\x7b\x7d"), (['^'], strL "\\^\x7b\x7d") ]

/-- The symbol substitution table (source: `self.math_map`), in insertion order. -/
def mathMapDefault : List (List Char × List Char) :=
  [ (['α'], strL "\\alpha"), (['β'], strL "\\beta"), (['γ'], strL "\\gamma"), (['δ'], strL "\\delta"),
    (['ϵ'], strL "\\epsilon"), (['ε'], strL "\\varepsilon"), (['ζ'], strL "\\zeta"), (['η'], strL "\\eta"),
    (['θ'], strL "\\theta"), (['ι'], strL "\\iota"), (['κ'], strL "\\kappa"), (['λ'], strL "\\lambda"),
    (['μ'], strL "\\mu"), (['ν'], strL "\\nu"), (['ξ'], strL "\\xi"), (['π'], strL "\\pi"),
    (['ρ'], strL "\\rho"), (['σ'], strL "\\sigma"), (['τ'], strL "\\tau"), (['υ'], strL "\\upsilon"),
    (['φ'], strL "\\phi"), (['χ'], strL "\\chi"), (['ψ'], strL "\\psi"), (['ω'], strL "\\omega"),
    (['Γ'], strL "\\Gamma"), (['Δ'], strL "\\Delta"), (['Θ'], strL "\\Theta"), (['Λ'], strL "\\Lambda"),
    (['Ξ'], strL "\\Xi"), (['Π'], strL "\\Pi"), (['Σ'], strL "\\Sigma"), (['Φ'], strL "\\Phi"),
    (['Ψ'], strL "\\Psi"), (['Ω'], strL "\\Omega"),
    (['⊕'], strL "\\oplus"), (['⊗'], strL "\\otimes"), (['⊖'], strL "\\ominus"), (['⊙'], strL "\\odot"),
    (['×'], strL "\\times"), (['·'], strL "\\cdot"), (['÷'], strL "\\div"), (['±'], strL "\\pm"),
    (['≤'], strL "\\le"), (['≥'], strL "\\ge"), (['≠'], strL "\\neq"), (['≈'], strL "\\approx"),
    (['≡'], strL "\\equiv"),
    (['→'], strL "\\to"), (['←'], strL "\\gets"), (['⇒'], strL "\\Rightarrow"),
    (['⇔'], strL "\\Leftrightarrow"), (['↦'], strL "\\mapsto"),
    (['∀'], strL "\\forall"), (['∃'], strL "\\exists"), (['¬'], strL "\\neg"),
    (['∧'], strL "\\land"), (['∨'], strL "\\lor"),
    (['∈'], strL "\\in"), (['∉'], strL "\\notin"), (['⊂'], strL "\\subset"), (['⊃'], strL "\\supset"),
    (['⊆'], strL "\\subseteq"), (['⊇'], strL "\\supseteq"), (['∪'], strL "\\cup"), (['∩'], strL "\\cap"),
    (['∅'], strL "\\emptyset"), (['∞'], strL "\\infty"), (['∂'], strL "\\partial"), (['∇'], strL "\\nabla"),
    (['∑'], strL "\\sum"), (['∏'], strL "\\prod"), (['∫'], strL "\\int"),
    (strL "...", strL "\\ldots"), (['◦'], strL "\\circ"),
    (['*'], strL "\\times"), (['{'], strL "\\\x7b"), (['}'], strL "\\\x7d") ]

/-- The base anchor-word set (source: `self.english_anchors`; `'we'` occurs
twice in the source literal, which is harmless for membership). -/
def englishAnchorsDefault : List (List Char) :=
  [ strL "the", strL "and", strL "for", strL "is", strL "are", strL "this", strL "that",
    strL "with", strL "from", strL "to", strL "in", strL "on", strL "by", strL "send",
    strL "sends", strL "single", strL "response",
    strL "an", strL "as", strL "at", strL "be", strL "or", strL "we", strL "our", strL "it",
    strL "if", strL "then", strL "of", strL "can", strL "has", strL "have", strL "security",
    strL "result", strL "method", strL "using", strL "given", strL "where", strL "let",
    strL "assume", strL "note", strL "function", strL "define", strL "fundamental",
    strL "suppose", strL "hence", strL "thus", strL "therefore", strL "show", strL "prove",
    strL "prover", strL "such", strL "valid", strL "check", strL "random", strL "no", strL "input",
    strL "am", strL "do", strL "go", strL "he", strL "me", strL "my", strL "ok", strL "so",
    strL "up", strL "us", strL "we", strL "ip" ]

/-- The default store produced by `LatexTranspiler.__init__`. -/
def defaultLex : LatexTranspiler :=
  { section_id := strL "##"
    subsection_id := strL "###"
    include_title := true
    text_special_chars := textSpecialCharsDefault
    math_map := mathMapDefault
    english_anchors := englishAnchorsDefault }

/-! ## Text Sanitizer (`sanitize_text`) -/

/-- Apply a sequence of `str.replace` substitutions in order. -/
def applyEsc (table : List (List Char × List Char)) (s : List Char) : List Char :=
  table.foldl (fun acc p => replaceAll p.1 p.2 acc) s

/-- `sanitize_text`: escape each special character in order of the table. -/
def sanitize_text (lex : LatexTranspiler) (text : List Char) : List Char :=
  applyEsc lex.text_special_chars text

/-! ## Math Expression Renderer (`transpile_math`) -/

/-- Is the next character `[` or `(` (the lookahead of the function-name patterns)? -/
def isOpenBr : Option Char → Bool
  | some '[' => true
  | some '(' => true
  | _ => false

/-- `re.sub(r'\bNAME(?=[\[\(])', r'\\NAME', text)`: prefix a function name with a
backslash when preceded by a word boundary and followed by `[` or `(`.
The lookahead character is not consumed. Fuel variant. -/
def funcWrapF (name : List Char) : Nat → Option Char → List Char → List Char
  | 0, _, s => s
  | _ + 1, _, [] => []
  | f + 1, prev, c :: rest =>
    if bndOk prev && listPre name (c :: rest) && isOpenBr (((c :: rest).drop name.length).head?) then
      '\\' :: name ++ funcWrapF name f name.getLast? ((c :: rest).drop name.length)
    else
      c :: funcWrapF name f (some c) rest

/-- Word-boundary anchored function wrapping. -/
def funcWrap (name s : List Char) : List Char := funcWrapF name s.length none s

/-- `re.sub(r'\b(Enc|Dec)k(?=\()', r'\\text{\1}_k', text)`. Fuel variant. -/
def encDecF : Nat → Option Char → List Char → List Char
  | 0, _, s => s
  | _ + 1, _, [] => []
  | f + 1, prev, c :: rest =>
    if bndOk prev && listPre (strL "Enck") (c :: rest) && (((c :: rest).drop 4).head? = some '(') then
      strL "\\text\x7bEnc\x7d_k" ++ encDecF f (some 'k') ((c :: rest).drop 4)
    else if bndOk prev && listPre (strL "Deck") (c :: rest) && (((c :: rest).drop 4).head? = some '(') then
      strL "\\text\x7bDec\x7d_k" ++ encDecF f (some 'k') ((c :: rest).drop 4)
    else
      c :: encDecF f (some c) rest

/-- The keyed-operator rewrite. -/
def encDec (s : List Char) : List Char := encDecF s.length none s

/-- `re.sub(r'√(\w+)', r'\\sqrt{\1}', text)`: a root symbol directly followed
by a non-empty word-character run becomes a radical over that run. Fuel variant. -/
def sqrtWordF : Nat → List Char → List Char
  | 0, s => s
  | _ + 1, [] => []
  | f + 1, c :: rest =>
    if c = '√' && rest.takeWhile isWordChar ≠ [] then
      strL "\\sqrt\x7b" ++ rest.takeWhile isWordChar ++ ['\x7d'] ++ sqrtWordF f (rest.dropWhile isWordChar)
    else
      c :: sqrtWordF f rest

/-- Radical-over-word rewrite. -/
def sqrtWord (s : List Char) : List Char := sqrtWordF s.length s

/-- `re.sub(r'(?<!\\)\b([a-zA-Z])(\d)\b', r'\1_\2', text)`: auto-subscript a
single letter immediately followed by a single digit. -/
def letterDigitGo : Option Char → List Char → List Char
  | _, [] => []
  | _, [c] => [c]
  | prev, c1 :: c2 :: rest =>
    if prev ≠ some '\\' && bndOk prev && c1.isAlpha && c2.isDigit &&
        (match rest.head? with | none => true | some n => !isWordChar n) then
      c1 :: '_' :: c2 :: letterDigitGo (some c2) rest
    else
      c1 :: letterDigitGo (some c1) (c2 :: rest)

/-- The replacement function for two-letter words (source: `two_letter_sub`):
keep the word when it is an anchor word or contains `Pr`, otherwise subscript. -/
def two_letter_sub (anchors : List (List Char)) (c1 c2 : Char) : List Char :=
  if [c1, c2] ∈ anchors || isSubstr (strL "Pr") [c1, c2] then [c1, c2]
  else [c1, '_', c2]

/-- `re.sub(r'(?<!\\)\b([a-zA-Z])([a-zA-Z])\b', two_letter_sub, text)`:
scan for bare two-letter alphabetic words; the negative lookbehind excludes a
preceding backslash, and both sides must be word boundaries. -/
def twoGo (anchors : List (List Char)) : Option Char → List Char → List Char
  | _, [] => []
  | _, [c] => [c]
  | prev, c1 :: c2 :: rest =>
    if prev ≠ some '\\' && bndOk prev && c1.isAlpha && c2.isAlpha &&
        (match rest.head? with | none => true | some n => !isWordChar n) then
      two_letter_sub anchors c1 c2 ++ twoGo anchors (some c2) rest
    else
      c1 :: twoGo anchors (some c1) (c2 :: rest)

/-- `re.sub(r'\s+', ' ', text)`: collapse whitespace runs to single spaces. -/
def collapseGo : Bool → List Char → List Char
  | _, [] => []
  | inWs, c :: rest =>
    if isWs c then (if inWs then collapseGo true rest else ' ' :: collapseGo true rest)
    else c :: collapseGo false rest

/-- `transpile_math`: raw math-bearing expression to LaTeX, in source order. -/
def transpile_math (lex : LatexTranspiler) (text : List Char) : List Char :=
  let t0 := replaceAll ['&'] (strL "\\&")
      (replaceAll ['$'] (strL "\\$")
        (replaceAll ['#'] (strL "\\#")
          (replaceAll ['%'] (strL "\\%") text)))
  let t1 := funcWrap (strL "lim")
      (funcWrap (strL "cos")
        (funcWrap (strL "sin")
          (funcWrap (strL "log")
            (funcWrap (strL "Pr") t0))))
  let t2 := encDec t1
  let t3 := lex.math_map.foldl (fun acc p => replaceAll p.1 (' ' :: p.2 ++ [' ']) acc) t2
  let t4 := if t3.contains '√' then replaceAll ['√'] (strL "\\sqrt") (sqrtWord t3) else t3
  let t5 := letterDigitGo none t4
  let t6 := twoGo lex.english_anchors none t5
  trimWs (collapseGo false t6)

/-! ## Math/Text Classifier (`is_math_token`, `is_math_line`) -/

/-- The punctuation set of `token.strip(".,;:?!")`. -/
def stripPunct : List Char := ['.', ',', ';', ':', '?', '!']

/-- `re.search(r'\b[A-Z][a-zA-Z0-9]*\(', clean)`: a capitalized identifier
(word-boundary anchored) immediately followed — after its maximal ASCII
alphanumeric run — by `(`. -/
def funcCallScan : Option Char → List Char → Bool
  | _, [] => false
  | prev, c :: rest =>
    if bndOk prev && c.isUpper && ((rest.dropWhile Char.isAlphanum).head? = some '(') then true
    else funcCallScan (some c) rest

/-- The `math_chars` patterns of `is_math_token`: every SymbolTable key plus
the extra literal characters. Substring containment is checked per pattern. -/
def mathTokenPats (lex : LatexTranspiler) : List (List Char) :=
  lex.math_map.map Prod.fst ++
    [['='], ['<'], ['>'], ['+'], ['◦'], ['·'], ['±'], ['^'], ['_'], ['|'], ['\\'], ['/']]

/-- `is_math_token`. -/
def is_math_token (lex : LatexTranspiler) (token : List Char) : Bool :=
  let clean := pyStripSet stripPunct token
  if clean = [] then false
  else if clean.map Char.toLower ∈ lex.english_anchors then false
  else if funcCallScan none clean then true
  else if (mathTokenPats lex).any (fun p => isSubstr p clean) then true
  else if clean.any Char.isDigit then true
  else if clean.length = 1 && clean.all pyIsLetter then
    !(clean = ['a'] || clean = ['A'] || clean = ['I'])
  else if clean.length = 2 && clean.all pyIsLetter then true
  else if clean.contains '(' && clean.contains ')' then true
  else false

/-- Words of `re.findall(r'\b[a-zA-Z]{2,}\b', line)`: maximal word-character
runs consisting solely of ASCII letters, of length at least 2. -/
def extractWords (l : List Char) : List (List Char) :=
  (runsBy isWordChar l).filter (fun w => decide (2 ≤ w.length) && w.all Char.isAlpha)

/-- The strong indicator patterns of `is_math_line`: every SymbolTable key
plus the eight relational characters (set union in the source; duplicates
are harmless for an existential check). -/
def strongIndicators (lex : LatexTranspiler) : List (List Char) :=
  lex.math_map.map Prod.fst ++ [['='], ['≤'], ['≥'], ['≠'], ['≈'], ['→'], ['<'], ['>']]

/-- `is_math_line`: count anchor words (with multiplicity, as `re.findall`
returns every occurrence) among the length-≥2 alphabetic words of the
lowercased line; two or more make the line prose; otherwise look for a
strong indicator. -/
def is_math_line (lex : LatexTranspiler) (line : List Char) : Bool :=
  let words := extractWords (line.map Char.toLower)
  let english_count := words.countP (fun w => decide (w ∈ lex.english_anchors))
  if 2 ≤ english_count then false
  else (strongIndicators lex).any (fun p => isSubstr p line)

/-! ## Inline Segmenter (`process_inline_math`) -/

/-- The punctuation/bracket/quote class of the prefix/suffix patterns
`^([.,;:?!()\[\]"']+)` and `([.,;:?!()\[\]"']+)$`. -/
def punctClass : List Char := ['.', ',', ';', ':', '?', '!', '(', ')', '[', ']', Char.ofNat 34, Char.ofNat 39]

/-- The balance-repair loop: while `core` has more `op` than `cl` and the
suffix starts with `cl`, move one closing bracket from suffix to core. -/
def repairBr (op cl : Char) : List Char → List Char → List Char × List Char
  | core, [] => (core, [])
  | core, s :: rest =>
    if decide (core.count cl < core.count op) && s = cl then repairBr op cl (core ++ [cl]) rest
    else (core, s :: rest)

/-- Split a raw token into (prefix, core, suffix): strip a leading
punctuation run, then a trailing punctuation run, then repair one level of
swallowed `)` and `]`. -/
def coreParts (tok : List Char) : List Char × List Char × List Char :=
  let pre := tok.takeWhile (punctClass.contains ·)
  let body := tok.dropWhile (punctClass.contains ·)
  let core0 := (body.reverse.dropWhile (punctClass.contains ·)).reverse
  let suf0 := (body.reverse.takeWhile (punctClass.contains ·)).reverse
  let cs1 := repairBr '(' ')' core0 suf0
  let cs2 := repairBr '[' ']' cs1.1 cs1.2
  (pre, cs2.1, cs2.2)

/-- The look-ahead character set of the `a`/`an` special case. -/
def aheadSet : List Char := ['=', '+', '≤', '≥', '>', '<', '⊕', '≈']

/-- Render one raw token given the next raw token (look-ahead), mirroring the
body of the loop in `process_inline_math`. -/
def renderTok (lex : LatexTranspiler) (tok : List Char) (nextTok : Option (List Char)) : List Char :=
  let parts := coreParts tok
  let pre := parts.1
  let core := parts.2.1
  let suf := parts.2.2
  let isM :=
    if core = strL "an" || core = strL "a" then
      match nextTok with
      | some nt => aheadSet.any (fun c => (pyStripSet stripPunct nt).contains c)
      | none => false
    else is_math_token lex core
  if isM then
    sanitize_text lex pre ++ '$' :: (transpile_math lex core ++ '$' :: sanitize_text lex suf)
  else
    sanitize_text lex tok

/-- The token loop of `process_inline_math` with its one-token look-ahead. -/
def processTokens (lex : LatexTranspiler) : List (List Char) → List (List Char)
  | [] => []
  | t :: rest => renderTok lex t rest.head? :: processTokens lex rest

/-- `process_inline_math`: split on single spaces, render each token, rejoin. -/
def process_inline_math (lex : LatexTranspiler) (line : List Char) : List Char :=
  List.intercalate [' '] (processTokens lex (pySplit ' ' line))

/-! ## List Content Formatter (`format_list_content`) -/

/-- The prefix of `l` extending to the end of its `k`-th whitespace-delimited
word (the end position of `re.finditer(r'\S+')` span number `k`). Fuel variant. -/
def prefixWordsF : Nat → Nat → List Char → List Char
  | _, 0, _ => []
  | 0, _ + 1, _ => []
  | f + 1, k + 1, l =>
    let a := l.takeWhile isWs
    let r := l.dropWhile isWs
    let w := r.takeWhile (fun c => !isWs c)
    if w = [] then []
    else a ++ w ++ prefixWordsF f k (r.dropWhile (fun c => !isWs c))

/-- Prefix of `l` through the end of word number `k`. -/
def prefixWords (k : Nat) (l : List Char) : List Char := prefixWordsF l.length k l

/-- `format_list_content`: bold an early "label:" prefix when the colon falls
within the first five words. -/
def format_list_content (lex : LatexTranspiler) (raw : List Char) : List Char :=
  let n := (runsBy (fun c => !isWs c) raw).length
  if n = 0 then process_inline_math lex raw
  else
    let limitPre := prefixWords (min 5 n) raw
    if limitPre.contains ':' then
      let pre := dropTrailWs (raw.takeWhile (fun c => c ≠ ':'))
      let suf := dropLeadWs (raw.dropWhile (fun c => c ≠ ':'))
      if pre = [] then process_inline_math lex raw
      else
        let preT := process_inline_math lex pre
        let sufT := process_inline_math lex suf
        if (match sufT.head? with
            | some c => ([':', ';', ',', '.', '!', '?'] : List Char).contains c
            | none => false) then
          strL "\\textbf\x7b" ++ preT ++ ['\x7d'] ++ sufT
        else
          strL "\\textbf\x7b" ++ preT ++ ['\x7d', ' '] ++ sufT
    else process_inline_math lex raw

/-! ## Structure Detector (`detect_structure`) -/

/-- Structural kind strings, as returned by the source. -/
def kSection : List Char := strL "section"

def kSubsection : List Char := strL "subsection"

def kSubsubsection : List Char := strL "subsubsection"

def kMathDisplay : List Char := strL "math_display"

def kEnumerate : List Char := strL "enumerate"

def kItemize : List Char := strL "itemize"

def kParagraph : List Char := strL "paragraph"

def kEmpty : List Char := strL "empty"

/-- The `(?:\.\d+)+`-style greedy dotted-group parser (zero or more groups of
a dot followed by a non-empty digit run); returns the consumed characters and
the rest.  Backtracking to fewer groups can never rescue a failed match of
the surrounding pattern (the character after a shorter parse is a dot or a
digit, never whitespace), so the greedy parse is faithful. Fuel variant. -/
def dotGroupsF : Nat → List Char → List Char × List Char
  | 0, l => ([], l)
  | f + 1, l =>
    match l with
    | '.' :: r =>
      if r.takeWhile Char.isDigit = [] then ([], l)
      else
        let m := dotGroupsF f (r.dropWhile Char.isDigit)
        ('.' :: (r.takeWhile Char.isDigit ++ m.1), m.2)
    | _ => ([], l)

/-- `re.match(r'^(\d+(?:\.\d+)+)\.?\s+(.*)', line)`: returns the numbering
(group 1) and the stripped title (`group(2).strip()`), if the line matches.
Lines processed by `transpile` contain no newline, so `(.*)` is the rest. -/
def headerMatch (l : List Char) : Option (List Char × List Char) :=
  let d1 := l.takeWhile Char.isDigit
  if d1 = [] then none
  else
    let r1 := l.dropWhile Char.isDigit
    let g := dotGroupsF r1.length r1
    if g.1 = [] then none
    else
      let r3 := match g.2 with
        | '.' :: rr => rr
        | other => other
      if (match r3.head? with | some c => isWs c | none => false) then
        some (d1 ++ g.1, trimWs (r3.dropWhile isWs))
      else none

/-- `re.match(r'^\d+\.\s+', line)`. -/
def enumMatch (l : List Char) : Bool :=
  l.takeWhile Char.isDigit ≠ [] &&
    (match l.dropWhile Char.isDigit with
     | '.' :: r => (match r.head? with | some c => isWs c | none => false)
     | _ => false)

/-- `re.sub(r'^\d+\.\s+', '', line)` under the assumption that the pattern
matched: drop the digits, the dot and the whitespace run. -/
def enumContent (l : List Char) : List Char :=
  match l.dropWhile Char.isDigit with
  | '.' :: r => r.dropWhile isWs
  | other => other

/-- `detect_structure`, in the source's fixed priority order.  The first,
immediately overwritten `header_match` assignment in the source is dead and
not modelled. -/
def detect_structure (lex : LatexTranspiler) (line : List Char) : List Char × List Char :=
  if listPre lex.subsection_id line then
    (kSubsection, trimWs (replaceFirst lex.subsection_id line))
  else if listPre lex.section_id line then
    (kSection, trimWs (replaceFirst lex.section_id line))
  else if is_math_line lex line then (kMathDisplay, line)
  else
    match headerMatch line with
    | some nt =>
      if listSuf (strL ".0") nt.1 then (kSection, nt.2)
      else if nt.1.count '.' = 1 then (kSubsection, nt.2)
      else (kSubsubsection, nt.2)
    | none =>
      if enumMatch line then (kEnumerate, enumContent line)
      else if listPre (strL "- ") line || listPre (strL "* ") line then
        (kItemize, trimWs (line.drop 2))
      else if line ≠ [] then (kParagraph, line)
      else (kEmpty, [])

/-! ## Table Block Generator (`generate_table_block`) -/

/-- `generate_table_block`: batch tab-delimited rows into one xltabular block
joined by newlines.  An empty row list yields the empty string. -/
def generate_table_block (lex : LatexTranspiler) (rows : List (List Char)) : List Char :=
  match rows with
  | [] => []
  | r0 :: body =>
    let header_cols := pySplit '\t' r0
    let col_spec : List Char := List.replicate header_cols.length 'X'
    let safe_headers := header_cols.map
      (fun h => strL "\\textbf\x7b" ++ process_inline_math lex (trimWs h) ++ ['\x7d'])
    let header_row := List.intercalate (strL " & ") safe_headers ++ strL " \\\\"
    let dataRows := body.flatMap
      (fun row =>
        [List.intercalate (strL " & ") ((pySplit '\t' row).map
            (fun c => process_inline_math lex (trimWs c))) ++ strL " \\\\",
         strL "\\addlinespace"])
    List.intercalate ['\n']
      ([strL "\\begin\x7bxltabular\x7d\x7b\\textwidth\x7d\x7b@\x7b\x7d" ++ col_spec ++ strL "@\x7b\x7d\x7d",
        strL "\\caption\x7bAuto-generated table\x7d \\\\",
        strL "\\toprule",
        header_row,
        strL "\\midrule",
        strL "\\endfirsthead",
        strL "\\caption[]\x7bAuto-generated table (continued)\x7d \\\\",
        strL "\\toprule",
        header_row,
        strL "\\midrule",
        strL "\\endhead",
        strL "\\bottomrule",
        strL "\\endfoot"] ++ dataRows ++ [strL "\\end\x7bxltabular\x7d"])

/-! ## Document Assembler (`transpile`) -/

/-- The begin directive `\begin{<kind>}` of a list environment. -/
def beginStr (k : List Char) : List Char := strL "\\begin\x7b" ++ k ++ ['\x7d']

/-- The end directive `\end{<kind>}` of a list environment. -/
def endStr (k : List Char) : List Char := strL "\\end\x7b" ++ k ++ ['\x7d']

/-- The running state of the assembler's line loop: the emitted lines so far,
the table buffer and the currently open list kind (`current_list_type`). -/
structure AsmSt where
  out : List (List Char)
  tbuf : List (List Char)
  cur : Option (List Char)

/-- Flush a non-empty table buffer into the output. -/
def flushTable (lex : LatexTranspiler) (st : AsmSt) : AsmSt :=
  if st.tbuf = [] then st
  else { out := st.out ++ [generate_table_block lex st.tbuf], tbuf := [], cur := st.cur }

/-- Close the currently open list, if any. -/
def closeList (st : AsmSt) : AsmSt :=
  match st.cur with
  | none => st
  | some k => { out := st.out ++ [endStr k], tbuf := st.tbuf, cur := none }

/-- The itemize/enumerate arm of the assembler loop: close a list of a
different kind, open one of this kind if none is open, emit the item line. -/
def listBranch (st1 : AsmSt) (kind safe : List Char) : AsmSt :=
  let st2 : AsmSt :=
    match st1.cur with
    | some k => if k ≠ kind then closeList st1 else st1
    | none => st1
  let st3 : AsmSt :=
    match st2.cur with
    | none => { out := st2.out ++ [beginStr kind], tbuf := st2.tbuf, cur := some kind }
    | some _ => st2
  { out := st3.out ++ [strL "    \\item " ++ safe], tbuf := st3.tbuf, cur := st3.cur }

/-- The non-item arm of the assembler loop (after closing any open list):
display math, paragraph, heading directives, or nothing for `empty`. -/
def otherBranch (lex : LatexTranspiler) (st2 : AsmSt) (kind raw_content : List Char) : AsmSt :=
  if kind = kMathDisplay then
    { out := st2.out ++ [strL "\\[ " ++ transpile_math lex raw_content ++ strL " \\]"],
      tbuf := st2.tbuf, cur := st2.cur }
  else if kind = kParagraph then
    { out := st2.out ++ [process_inline_math lex raw_content ++ strL "\n\n"],
      tbuf := st2.tbuf, cur := st2.cur }
  else if listPre kSection kind || listPre (strL "sub") kind then
    { out := st2.out ++ ['\\' :: kind ++ '\x7b' :: process_inline_math lex raw_content ++ ['\x7d']],
      tbuf := st2.tbuf, cur := st2.cur }
  else st2

/-- One iteration of the assembler's `for line in lines` loop. -/
def stepLine (lex : LatexTranspiler) (st : AsmSt) (rawLine : List Char) : AsmSt :=
  let line := trimWs rawLine
  if line.contains '\t' then { out := st.out, tbuf := st.tbuf ++ [line], cur := st.cur }
  else
    let st1 := flushTable lex st
    let sd := detect_structure lex line
    if sd.1 = kItemize || sd.1 = kEnumerate then
      listBranch st1 sd.1 (format_list_content lex sd.2)
    else
      otherBranch lex (closeList st1) sd.1 sd.2

/-- The fixed preamble plus title block emitted before the line loop. -/
def preambleLines (lex : LatexTranspiler) (title_text : List Char) : List (List Char) :=
  [ strL "\\documentclass\x7barticle\x7d",
    strL "\\usepackage\x7bamsmath, amssymb\x7d",
    strL "\\usepackage[utf8]\x7binputenc\x7d",
    strL "\\usepackage\x7bxltabular\x7d",
    strL "\\usepackage\x7bbooktabs\x7d",
    strL "\\setlength\x7b\\parskip\x7d\x7b1em\x7d",
    strL "\\title\x7b" ++ process_inline_math lex title_text ++ ['\x7d'],
    strL "\\author\x7b\x7d",
    strL "\\date\x7b\\today\x7d",
    strL "\\begin\x7bdocument\x7d" ] ++
  (if lex.include_title then [strL "\\maketitle"] else [])

/-- The end-of-input actions of `transpile`: close a still-open list, flush
a non-empty table buffer, and emit the closing document directive. -/
def assembleTail (lex : LatexTranspiler) (fin : AsmSt) : List (List Char) :=
  let out1 := match fin.cur with
    | some k => fin.out ++ [endStr k]
    | none => fin.out
  let out2 := if fin.tbuf = [] then out1 else out1 ++ [generate_table_block lex fin.tbuf]
  out2 ++ [strL "\\end\x7bdocument\x7d"]

/-- `transpile`, as the list of emitted lines (`latex_output` before the final
join). -/
def transpileLines (lex : LatexTranspiler) (raw_input : List Char) : List (List Char) :=
  let lines := pySplit '\n' (trimWs raw_input)
  let title_text := match lines with
    | [] => strL "Untitled Document"
    | t :: _ => t
  let body := match lines with
    | [] => []
    | _ :: r => r
  assembleTail lex
    (body.foldl (stepLine lex) { out := preambleLines lex title_text, tbuf := [], cur := none })

/-- `transpile`: the final joined buffer. -/
def transpile (lex : LatexTranspiler) (raw_input : List Char) : List Char :=
  List.intercalate ['\n'] (transpileLines lex raw_input)

/-- The external boundary of `transpile`, over a possibly absent (`None`)
input.  A `None` argument raises `AttributeError` at `raw_input.strip()`
before anything else happens, modelled as `Except.error ()`; the store is
returned alongside to express the frame behaviour (the source method never
assigns to `self`). -/
def transpileOpt (lex : LatexTranspiler) (raw_input : Option (List Char)) :
    Except Unit (List Char) × LatexTranspiler :=
  match raw_input with
  | none => (Except.error (), lex)
  | some s => (Except.ok (transpile lex s), lex)

/-! ## Claim-side definitions (formalising the spec's wording where it
differs from the source, for comparison) -/

/-- The claim's reading of `isMathLine`: count *distinct* lowercase words of
length ≥ 2 that are anchor words. -/
def isMathLineDistinct (lex : LatexTranspiler) (line : List Char) : Bool :=
  let words := (extractWords (line.map Char.toLower)).dedup
  if 2 ≤ words.countP (fun w => decide (w ∈ lex.english_anchors)) then false
  else (strongIndicators lex).any (fun p => isSubstr p line)

/-- The amended reading of `isMathLine`: count anchor-word *occurrences*
(with multiplicity); fewer than two permit the strong-indicator check. -/
def isMathLineAmended (lex : LatexTranspiler) (line : List Char) : Bool :=
  decide (((extractWords (line.map Char.toLower)).filter
      (fun w => decide (w ∈ lex.english_anchors))).length < 2) &&
    (strongIndicators lex).any (fun p => isSubstr p line)

/-! ## List-environment events (for the Assembler invariant) -/

/-- A list-environment event in the output: a begin or end directive of
`itemize` or `enumerate`. -/
inductive LEv where
  | beg : List Char → LEv
  | fin : List Char → LEv
deriving DecidableEq

/-- Recognise an output line as a list-environment directive. -/
def evOf (s : List Char) : Option LEv :=
  if s = beginStr kItemize then some (LEv.beg kItemize)
  else if s = beginStr kEnumerate then some (LEv.beg kEnumerate)
  else if s = endStr kItemize then some (LEv.fin kItemize)
  else if s = endStr kEnumerate then some (LEv.fin kEnumerate)
  else none

/-- The sequence of list-environment events of an output buffer. -/
def levents (out : List (List Char)) : List LEv := out.filterMap evOf

/-- A sequence of events is a concatenation of immediately matched
begin/end pairs: every begin directive is matched by its end directive
before another list begins. -/
inductive PairedLists : List LEv → Prop where
  | nil : PairedLists []
  | pair (k : List Char) (rest : List LEv) :
      PairedLists rest → PairedLists (LEv.beg k :: LEv.fin k :: rest)

/-- The event invariant relative to the open-list state: with no list open
the events are fully paired; with list `k` open they are a paired prefix
followed by the pending begin directive of `k`. -/
def OpenSt : Option (List Char) → List LEv → Prop
  | none, es => PairedLists es
  | some k, es => ∃ es0, PairedLists es0 ∧ es = es0 ++ [LEv.beg k]

/-- The open list, if any, is an itemize or enumerate environment. -/
def CurOk : Option (List Char) → Prop
  | none => True
  | some k => k = kItemize ∨ k = kEnumerate

/-- The loop invariant of the Assembler's state machine. -/
def InvSt (st : AsmSt) : Prop := CurOk st.cur ∧ OpenSt st.cur (levents st.out)

/-! ## Helper lemmas -/

theorem processTokens_split (lex : LatexTranspiler) (t : List Char) :
    ∀ ts, ∃ X, processTokens lex (ts ++ [t]) = X ++ [renderTok lex t none]
  | [] => ⟨[], by simp [processTokens]⟩
  | a :: ts => by
    obtain ⟨X, h⟩ := processTokens_split lex t ts
    exact ⟨renderTok lex a ((ts ++ [t]).head?) :: X, by simp [processTokens, h]⟩

/-! ## Claims -/

set_option maxRecDepth 8000 in
/-- C1: the claim asserts that a null/absent raw input is treated as an
empty document with title `Untitled Document` and no body, without raising.
The code instead raises on a `None` input (`None.strip()` is an
`AttributeError`), and for the empty string the `"Untitled Document"`
fallback is unreachable (`''.split('\n')` is `['']`, never `[]`), so the
title directive is empty.  This theorem evaluates the code at both failing
inputs: the `None` call errors, and the empty-string document carries
`\title{}` and no body blocks. -/
theorem c1_null_and_empty_input_evaluation :
    (transpileOpt defaultLex none).1 = Except.error () ∧
    transpileLines defaultLex (strL "") =
      [ strL "\\documentclass\x7barticle\x7d",
        strL "\\usepackage\x7bamsmath, amssymb\x7d",
        strL "\\usepackage[utf8]\x7binputenc\x7d",
        strL "\\usepackage\x7bxltabular\x7d",
        strL "\\usepackage\x7bbooktabs\x7d",
        strL "\\setlength\x7b\\parskip\x7d\x7b1em\x7d",
        strL "\\title\x7b\x7d",
        strL "\\author\x7b\x7d",
        strL "\\date\x7b\\today\x7d",
        strL "\\begin\x7bdocument\x7d",
        strL "\\maketitle",
        strL "\\end\x7bdocument\x7d" ] := by
  constructor
  · rfl
  · decide

/-- C2 counterexample: the line `$x+y$` is *not* classified `math_display`;
neither `$` nor `+` is a strong indicator of `is_math_line`, so the
Structure Detector returns `paragraph`. -/
theorem c2_dollar_line_counterexample :
    detect_structure defaultLex (strL "$x+y$") = (kParagraph, strL "$x+y$") ∧
    kParagraph ≠ kMathDisplay := by
  constructor
  · decide
  · decide

set_option maxRecDepth 8000 in
/-- C2 amended: under the default configuration the body line `$x+y$` is
classified `paragraph`; the Inline Segmenter marks the token as math (via
`+`), pre-escapes the dollars, and emits the paragraph `$\$x+y\$$`, so the
output is an inline span that still contains literal `$` characters, not a
display block. -/
theorem c2_dollar_line_amended :
    transpileLines defaultLex (strL "T\n$x+y$") =
      [ strL "\\documentclass\x7barticle\x7d",
        strL "\\usepackage\x7bamsmath, amssymb\x7d",
        strL "\\usepackage[utf8]\x7binputenc\x7d",
        strL "\\usepackage\x7bxltabular\x7d",
        strL "\\usepackage\x7bbooktabs\x7d",
        strL "\\setlength\x7b\\parskip\x7d\x7b1em\x7d",
        strL "\\title\x7b$T$\x7d",
        strL "\\author\x7b\x7d",
        strL "\\date\x7b\\today\x7d",
        strL "\\begin\x7bdocument\x7d",
        strL "\\maketitle",
        strL "$\\$x+y\\$$\n\n",
        strL "\\end\x7bdocument\x7d" ] ∧
    '$' ∈ strL "$\\$x+y\\$$\n\n" := by
  constructor
  · decide
  · decide

/-- C3 counterexample: on the line `the = the` the code counts the anchor
word `the` twice (`re.findall` yields every occurrence) and returns `false`,
while the claim's distinct-word count is 1 and predicts `true`. -/
theorem c3_distinct_count_counterexample :
    is_math_line defaultLex (strL "the = the") = false ∧
    isMathLineDistinct defaultLex (strL "the = the") = true := by
  constructor
  · decide
  · decide

/-- C3 amended: `is_math_line` counts anchor-word *occurrences* (with
multiplicity), not distinct words; if fewer than two occur, the result is
exactly the strong-indicator check. -/
theorem c3_anchor_count_amended (lex : LatexTranspiler) (line : List Char) :
    is_math_line lex line = isMathLineAmended lex line := by
  simp only [is_math_line, isMathLineAmended]
  rw [List.countP_eq_length_filter]
  by_cases h : 2 ≤ ((extractWords (line.map Char.toLower)).filter
      (fun w => decide (w ∈ lex.english_anchors))).length
  · simp [h, Nat.not_lt.mpr h]
  · simp [h, Nat.lt_of_not_le h]

/-- C4: `transpile` is deterministic — two calls on the same input with no
intervening settings merge (the second call runs in the store state returned
by the first) produce identical output buffers. -/
theorem c4_transpile_deterministic (lex : LatexTranspiler) (s : List Char) :
    (transpileOpt lex (some s)).1 =
      (transpileOpt (transpileOpt lex (some s)).2 (some s)).1 := rfl

/-- C9: a `transpile` call leaves every component of the Lexicon Store
unchanged — anchors, both markers, the title flag, the EscapeTable and the
SymbolTable — including the raising `None` call.  (The source method never
assigns to `self`, so the embedding threads the store through unchanged.) -/
theorem c9_store_frame (lex : LatexTranspiler) (raw : Option (List Char)) :
    (transpileOpt lex raw).2.english_anchors = lex.english_anchors ∧
    (transpileOpt lex raw).2.section_id = lex.section_id ∧
    (transpileOpt lex raw).2.subsection_id = lex.subsection_id ∧
    (transpileOpt lex raw).2.include_title = lex.include_title ∧
    (transpileOpt lex raw).2.text_special_chars = lex.text_special_chars ∧
    (transpileOpt lex raw).2.math_map = lex.math_map := by
  cases raw <;> exact ⟨rfl, rfl, rfl, rfl, rfl, rfl⟩

/-- C10: a token whose stripped core is `a` or `an` and which is the last
raw token of its line (no look-ahead token exists) is always emitted as the
sanitized raw token, never as an inline math span. -/
theorem c10_trailing_article_prose (lex : LatexTranspiler) (ts : List (List Char)) (t : List Char)
    (h : (coreParts t).2.1 = strL "a" ∨ (coreParts t).2.1 = strL "an") :
    (processTokens lex (ts ++ [t])).getLast? = some (sanitize_text lex t) := by
  obtain ⟨X, hX⟩ := processTokens_split lex t ts
  rw [hX, List.getLast?_concat]
  unfold renderTok
  rcases h with h | h <;> simp [h]

/-- C10 witness: the line `see a.` ends with the token `a.`, whose core is
`a`; the rendered token list ends with the sanitized raw token. -/
theorem c10_trailing_article_witness :
    ((coreParts (strL "a.")).2.1 = strL "a" ∨ (coreParts (strL "a.")).2.1 = strL "an") ∧
    (processTokens defaultLex ([strL "see"] ++ [strL "a."])).getLast? =
      some (sanitize_text defaultLex (strL "a.")) :=
  ⟨Or.inl (by decide),
   c10_trailing_article_prose defaultLex [strL "see"] (strL "a.") (Or.inl (by decide))⟩

theorem pySplit_no_sep (sep : Char) : ∀ l : List Char, sep ∉ l → pySplit sep l = [l]
  | [], _ => rfl
  | c :: rest, h => by
    have hc : ¬(c = sep) := fun e => h (e ▸ List.mem_cons_self c rest)
    have hr : sep ∉ rest := fun m => h (List.mem_cons_of_mem c m)
    simp [pySplit, pySplit_no_sep sep rest hr, hc]

theorem pySplit_sep_append (sep : Char) (t l : List Char) (ht : sep ∉ t) (hl : sep ∉ l) :
    pySplit sep (t ++ sep :: l) = [t, l] := by
  induction t with
  | nil => simp [pySplit, pySplit_no_sep sep l hl]
  | cons c t ih =>
    have hc : ¬(c = sep) := fun e => ht (e ▸ List.mem_cons_self c t)
    have ht' : sep ∉ t := fun m => ht (List.mem_cons_of_mem c m)
    simp [pySplit, ih ht', hc]

theorem replaceFirst_pre (pat s : List Char) (hne : pat ≠ []) (hp : listPre pat s = true) :
    replaceFirst pat s = s.drop pat.length := by
  cases s with
  | nil =>
    cases pat with
    | nil => exact absurd rfl hne
    | cons p ps => simp [listPre] at hp
  | cons c rest => simp [replaceFirst, replaceFirstF, hne, hp]

theorem mem_assembleTail (lex : LatexTranspiler) (fin : AsmSt) (x : List Char)
    (hx : x ∈ fin.out) : x ∈ assembleTail lex fin := by
  rcases hc : fin.cur with _ | k <;> by_cases hb : fin.tbuf = [] <;>
    simp [assembleTail, hc, hb, List.mem_append] <;> tauto

theorem transpileLines_two (lex : LatexTranspiler) (t l : List Char)
    (hnt : '\n' ∉ t) (hnl : '\n' ∉ l)
    (htrim : trimWs (t ++ '\n' :: l) = t ++ '\n' :: l) :
    transpileLines lex (t ++ '\n' :: l) =
      assembleTail lex (stepLine lex { out := preambleLines lex t, tbuf := [], cur := none } l) := by
  unfold transpileLines
  rw [htrim, pySplit_sep_append '\n' t l hnt hnl]
  rfl

/-- C7: with the default markers, any body line whose stripped form starts
with the section marker `##` but not with the subsection marker `###` is
classified `section` — for every anchor-word configuration, with title the
remainder after removing the marker once and trimming — and `transpile` on a
two-line document with such a body line emits the `\section{...}` directive.
Marker classification precedes the math-line check and ignores anchors. -/
theorem c7_section_marker_priority (lex : LatexTranspiler)
    (hsec : lex.section_id = strL "##") (hsub : lex.subsection_id = strL "###")
    (t l : List Char) (hnt : '\n' ∉ t) (hnl : '\n' ∉ l)
    (htrim : trimWs (t ++ '\n' :: l) = t ++ '\n' :: l)
    (htab : (trimWs l).contains '\t' = false)
    (hno3 : listPre (strL "###") (trimWs l) = false)
    (hyes : listPre (strL "##") (trimWs l) = true) :
    detect_structure lex (trimWs l) = (kSection, trimWs ((trimWs l).drop 2)) ∧
    ('\\' :: kSection ++ '\x7b' :: process_inline_math lex (trimWs ((trimWs l).drop 2)) ++ ['\x7d'])
      ∈ transpileLines lex (t ++ '\n' :: l) := by
  have h2 : replaceFirst (strL "##") (trimWs l) = (trimWs l).drop 2 :=
    replaceFirst_pre (strL "##") (trimWs l) (by decide) hyes
  have hdet : detect_structure lex (trimWs l) = (kSection, trimWs ((trimWs l).drop 2)) := by
    unfold detect_structure
    rw [hsub, hsec, hno3, hyes, h2]
    simp
  have hstep : stepLine lex { out := preambleLines lex t, tbuf := [], cur := none } l =
      { out := preambleLines lex t ++
          ['\\' :: kSection ++ '\x7b' :: process_inline_math lex (trimWs ((trimWs l).drop 2)) ++ ['\x7d']],
        tbuf := [], cur := none } := by
    have n1 : ¬(kSection = kItemize) := by decide
    have n1b : ¬(kSection = kEnumerate) := by decide
    have n2 : ¬(kSection = kMathDisplay) := by decide
    have n3 : ¬(kSection = kParagraph) := by decide
    have b4 : (listPre kSection kSection || listPre (strL "sub") kSection) = true := by decide
    have htab' : '\t' ∉ trimWs l := by simpa using htab
    simp [stepLine, listBranch, otherBranch, htab', hdet, flushTable, closeList, n1, n1b, n2, n3, b4]
  refine ⟨hdet, ?_⟩
  rw [transpileLines_two lex t l hnt hnl htrim, hstep]
  exact mem_assembleTail lex _ _ (List.mem_append_right _ (List.mem_singleton_self _))

set_option maxRecDepth 8000 in
/-- C7 witness: the document `T\n## Intro` with the default store emits the
`\section{...}` directive for `## Intro`. -/
theorem c7_section_marker_witness :
    (listPre (strL "##") (trimWs (strL "## Intro")) = true ∧
      listPre (strL "###") (trimWs (strL "## Intro")) = false) ∧
    ('\\' :: kSection ++ '\x7b' ::
        process_inline_math defaultLex (trimWs ((trimWs (strL "## Intro")).drop 2)) ++ ['\x7d'])
      ∈ transpileLines defaultLex (strL "T" ++ '\n' :: strL "## Intro") :=
  ⟨⟨by decide, by decide⟩,
   (c7_section_marker_priority defaultLex rfl rfl (strL "T") (strL "## Intro")
      (by decide) (by decide) (by decide) (by decide) (by decide) (by decide)).2⟩

theorem isAlpha_false_of_not_word (z : Char) (h : isWordChar z = false) : z.isAlpha = false := by
  by_contra hc
  have hz : z.isAlpha = true := by
    cases hzb : z.isAlpha
    · exact absurd hzb hc
    · rfl
  simp [isWordChar, pyIsLetter, hz] at h

theorem twoGo_cons_nonletter (A : List (List Char)) (p : Option Char) (z : Char)
    (rest : List Char) (hz : z.isAlpha = false) :
    twoGo A p (z :: rest) = z :: twoGo A (some z) rest := by
  cases rest with
  | nil => simp [twoGo]
  | cons r rs => simp [twoGo, hz]

theorem twoGo_cons2 (A : List (List Char)) (p : Option Char) (c1 c2 : Char) (rest : List Char) :
    twoGo A p (c1 :: c2 :: rest) =
      if decide (p ≠ some '\\') && bndOk p && c1.isAlpha && c2.isAlpha &&
          (match rest.head? with | none => true | some n => !isWordChar n) then
        two_letter_sub A c1 c2 ++ twoGo A (some c2) rest
      else c1 :: twoGo A (some c1) (c2 :: rest) := rfl

theorem twoGo_append (A : List (List Char)) :
    ∀ (p : Option Char) (u rest : List Char) (z : Char),
      u.getLast? = some z → isWordChar z = false →
      twoGo A p (u ++ rest) = twoGo A p u ++ twoGo A (some z) rest
  | _, [], _, _, hlast, _ => by simp at hlast
  | p, [w], rest, z, hlast, hword => by
    have hwz : w = z := by simpa using hlast
    subst hwz
    have hwa : w.isAlpha = false := isAlpha_false_of_not_word w hword
    calc twoGo A p ([w] ++ rest) = twoGo A p (w :: rest) := rfl
      _ = w :: twoGo A (some w) rest := twoGo_cons_nonletter A p w rest hwa
      _ = twoGo A p [w] ++ twoGo A (some w) rest := by simp [twoGo]
  | p, a :: b :: u', rest, z, hlast, hword => by
    cases u' with
    | nil =>
      have hbz : b = z := by simpa using hlast
      subst hbz
      have hba : b.isAlpha = false := isAlpha_false_of_not_word b hword
      calc twoGo A p ([a, b] ++ rest) = twoGo A p (a :: b :: rest) := rfl
        _ = a :: twoGo A (some a) (b :: rest) := by
            rw [twoGo_cons2]
            simp [hba]
        _ = a :: b :: twoGo A (some b) rest := by
            rw [twoGo_cons_nonletter A (some a) b rest hba]
        _ = twoGo A p [a, b] ++ twoGo A (some b) rest := by
            rw [twoGo_cons2]
            simp [twoGo, hba]
    | cons c u'' =>
      have hlast' : (c :: u'').getLast? = some z := by
        simpa [List.getLast?_cons_cons] using hlast
      have hlast'' : (b :: c :: u'').getLast? = some z := by
        simpa [List.getLast?_cons_cons] using hlast
      have goal2 : twoGo A p (a :: b :: ((c :: u'') ++ rest)) =
          twoGo A p (a :: b :: c :: u'') ++ twoGo A (some z) rest := by
        rw [twoGo_cons2 A p a b ((c :: u'') ++ rest), twoGo_cons2 A p a b (c :: u'')]
        have hh1 : ((c :: u'') ++ rest).head? = some c := rfl
        have hh2 : (c :: u'').head? = some c := rfl
        rw [hh1, hh2]
        by_cases h : (decide (p ≠ some '\\') && bndOk p && a.isAlpha && b.isAlpha && !isWordChar c) = true
        · rw [if_pos h, if_pos h,
            twoGo_append A (some b) (c :: u'') rest z hlast' hword, List.append_assoc]
        · rw [if_neg h, if_neg h]
          have e2 := twoGo_append A (some a) (b :: c :: u'') rest z hlast'' hword
          exact congrArg (fun x => a :: x) e2
      exact goal2
termination_by _ u _ _ _ _ => u.length

theorem twoGo_pair (A : List (List Char)) (p : Option Char) (c1 c2 : Char) (v : List Char)
    (hp1 : decide (p ≠ some '\\') = true) (hp2 : bndOk p = true)
    (h1 : c1.isAlpha = true) (h2 : c2.isAlpha = true)
    (hv : v = [] ∨ ∃ w, v.head? = some w ∧ isWordChar w = false) :
    twoGo A p (c1 :: c2 :: v) = two_letter_sub A c1 c2 ++ twoGo A none v := by
  rcases hv with rfl | ⟨w, hw, hwn⟩
  · rw [twoGo_cons2]
    simp [hp1, hp2, h1, h2, twoGo]
  · cases v with
    | nil => simp at hw
    | cons w' v' =>
      have hww : w' = w := by simpa using hw
      rw [← hww] at hwn
      have hwa : w'.isAlpha = false := isAlpha_false_of_not_word w' hwn
      have hcnd : (decide (p ≠ some '\\') && bndOk p && c1.isAlpha && c2.isAlpha &&
          (match (w' :: v').head? with | none => true | some n => !isWordChar n)) = true := by
        rw [hp1, hp2, h1, h2]
        simp [hwn]
      rw [twoGo_cons2, if_pos hcnd, twoGo_cons_nonletter A (some c2) w' v' hwa,
        twoGo_cons_nonletter A none w' v' hwa]

/-- C8: in `transpile_math`'s two-letter pass, a bare two-letter alphabetic
word (word boundaries on both sides, no preceding backslash) is rewritten to
`first_second` unless the whole word is a recognized anchor word or contains
the substring `Pr`, in which case it is left unchanged; the surrounding text
is rewritten independently. -/
theorem c8_two_letter_subscript (lex : LatexTranspiler) (u v : List Char) (c1 c2 : Char)
    (h1 : c1.isAlpha = true) (h2 : c2.isAlpha = true)
    (hu : u = [] ∨ ∃ z, u.getLast? = some z ∧ isWordChar z = false ∧ z ≠ '\\')
    (hv : v = [] ∨ ∃ w, v.head? = some w ∧ isWordChar w = false) :
    twoGo lex.english_anchors none (u ++ c1 :: c2 :: v) =
      twoGo lex.english_anchors none u ++
        (if [c1, c2] ∈ lex.english_anchors ∨ isSubstr (strL "Pr") [c1, c2] = true
         then [c1, c2] else [c1, '_', c2]) ++
        twoGo lex.english_anchors none v := by
  have hsub : (if [c1, c2] ∈ lex.english_anchors ∨ isSubstr (strL "Pr") [c1, c2] = true
      then [c1, c2] else [c1, '_', c2]) = two_letter_sub lex.english_anchors c1 c2 := by
    by_cases hmem : [c1, c2] ∈ lex.english_anchors <;>
      by_cases hpr : isSubstr (strL "Pr") [c1, c2] = true <;>
      simp [two_letter_sub, hmem, hpr]
  rw [hsub]
  rcases hu with rfl | ⟨z, hzl, hznw, hzbs⟩
  · rw [List.nil_append,
      twoGo_pair lex.english_anchors none c1 c2 v (by simp) (by simp [bndOk]) h1 h2 hv]
    simp [twoGo]
  · rw [twoGo_append lex.english_anchors none u (c1 :: c2 :: v) z hzl hznw,
      twoGo_pair lex.english_anchors (some z) c1 c2 v (by simp [hzbs]) (by simp [bndOk, hznw])
        h1 h2 hv, List.append_assoc]

/-- C8 witness: in the context `q x y z` (prefix `q `, suffix ` z`, both
boundaries non-word), the two-letter word `xy` is neither an anchor word nor
contains `Pr`, so the pass rewrites it to `x_y` and leaves the context
otherwise to the same pass. -/
theorem c8_two_letter_witness :
    ('x'.isAlpha = true ∧ (strL "q ").getLast? = some ' ' ∧ isWordChar ' ' = false) ∧
    twoGo defaultLex.english_anchors none (strL "q " ++ 'x' :: 'y' :: strL " z") =
      twoGo defaultLex.english_anchors none (strL "q ") ++
        (if ['x', 'y'] ∈ defaultLex.english_anchors ∨ isSubstr (strL "Pr") ['x', 'y'] = true
         then ['x', 'y'] else ['x', '_', 'y']) ++
        twoGo defaultLex.english_anchors none (strL " z") :=
  ⟨⟨by decide, by decide, by decide⟩,
   c8_two_letter_subscript defaultLex (strL "q ") (strL " z") 'x' 'y' (by decide) (by decide)
     (Or.inr ⟨' ', by decide, by decide, by decide⟩)
     (Or.inr ⟨' ', by decide, by decide⟩)⟩

theorem paired_append_pair (es : List LEv) (h : PairedLists es) (k : List Char) :
    PairedLists (es ++ [LEv.beg k, LEv.fin k]) := by
  induction h with
  | nil => exact PairedLists.pair k [] PairedLists.nil
  | pair k' rest _ ih => simpa using PairedLists.pair k' _ ih

theorem levents_snoc (out : List (List Char)) (x : List Char) :
    levents (out ++ [x]) = levents out ++ (evOf x).toList := by
  cases h : evOf x <;> simp [levents, List.filterMap_append, List.filterMap_cons, h]

theorem evOf_nl (s : List Char) (h : '\n' ∈ s) : evOf s = none := by
  unfold evOf
  split_ifs with h1 h2 h3 h4
  · rw [h1] at h; exact absurd h (by decide)
  · rw [h2] at h; exact absurd h (by decide)
  · rw [h3] at h; exact absurd h (by decide)
  · rw [h4] at h; exact absurd h (by decide)
  · rfl

theorem evOf_head (c : Char) (t : List Char) (hc : c ≠ '\\') : evOf (c :: t) = none := by
  unfold evOf
  split_ifs with h1 h2 h3 h4
  · rw [show beginStr kItemize = '\\' :: strL "begin\x7bitemize\x7d" from by decide] at h1
    simp at h1
    exact absurd h1.1 hc
  · rw [show beginStr kEnumerate = '\\' :: strL "begin\x7benumerate\x7d" from by decide] at h2
    simp at h2
    exact absurd h2.1 hc
  · rw [show endStr kItemize = '\\' :: strL "end\x7bitemize\x7d" from by decide] at h3
    simp at h3
    exact absurd h3.1 hc
  · rw [show endStr kEnumerate = '\\' :: strL "end\x7benumerate\x7d" from by decide] at h4
    simp at h4
    exact absurd h4.1 hc
  · rfl

theorem evOf_snd (c : Char) (t : List Char) (hb : c ≠ 'b') (he : c ≠ 'e') :
    evOf ('\\' :: c :: t) = none := by
  unfold evOf
  split_ifs with h1 h2 h3 h4
  · rw [show beginStr kItemize = '\\' :: 'b' :: strL "egin\x7bitemize\x7d" from by decide] at h1
    simp at h1
    exact absurd h1.1 hb
  · rw [show beginStr kEnumerate = '\\' :: 'b' :: strL "egin\x7benumerate\x7d" from by decide] at h2
    simp at h2
    exact absurd h2.1 hb
  · rw [show endStr kItemize = '\\' :: 'e' :: strL "nd\x7bitemize\x7d" from by decide] at h3
    simp at h3
    exact absurd h3.1 he
  · rw [show endStr kEnumerate = '\\' :: 'e' :: strL "nd\x7benumerate\x7d" from by decide] at h4
    simp at h4
    exact absurd h4.1 he
  · rfl

theorem nl_mem_intercalate (a b : List Char) (l : List (List Char)) :
    '\n' ∈ List.intercalate ['\n'] (a :: b :: l) := by
  unfold List.intercalate
  rw [List.intersperse_cons_cons]
  simp

theorem generate_table_nl (lex : LatexTranspiler) (r : List Char) (rs : List (List Char)) :
    '\n' ∈ generate_table_block lex (r :: rs) := by
  unfold generate_table_block
  simp only [List.cons_append]
  exact nl_mem_intercalate _ _ _

theorem flushTable_inv (lex : LatexTranspiler) (st : AsmSt) (h : InvSt st) :
    InvSt (flushTable lex st) := by
  unfold flushTable
  split_ifs with ht
  · exact h
  · obtain ⟨hcur, hopen⟩ := h
    refine ⟨hcur, ?_⟩
    have hev : evOf (generate_table_block lex st.tbuf) = none := by
      rcases hbb : st.tbuf with _ | ⟨r, rs⟩
      · exact absurd hbb ht
      · exact evOf_nl _ (hbb ▸ generate_table_nl lex r rs)
    show OpenSt st.cur (levents (st.out ++ [generate_table_block lex st.tbuf]))
    rw [levents_snoc, hev]
    simpa using hopen

theorem closeList_paired (st : AsmSt) (h : InvSt st) :
    PairedLists (levents (closeList st).out) ∧ (closeList st).cur = none ∧
      (closeList st).tbuf = st.tbuf := by
  obtain ⟨hcur, hopen⟩ := h
  unfold closeList
  rcases hc : st.cur with _ | k
  · rw [hc] at hopen
    exact ⟨hopen, hc, rfl⟩
  · rw [hc] at hopen hcur
    obtain ⟨es0, hp, hes⟩ := hopen
    have hcur' : k = kItemize ∨ k = kEnumerate := hcur
    have hev : evOf (endStr k) = some (LEv.fin k) := by
      rcases hcur' with rfl | rfl <;> decide
    refine ⟨?_, rfl, rfl⟩
    show PairedLists (levents (st.out ++ [endStr k]))
    rw [levents_snoc, hes, hev]
    simpa [List.append_assoc] using paired_append_pair es0 hp k

theorem listPre_cons_ex (p : Char) (ps s : List Char) (h : listPre (p :: ps) s = true) :
    ∃ s', s = p :: s' := by
  cases s with
  | nil => simp [listPre] at h
  | cons c cs =>
    simp [listPre] at h
    exact ⟨cs, by rw [h.1]⟩

theorem listBranch_inv (st1 : AsmSt) (kind safe : List Char)
    (hk : kind = kItemize ∨ kind = kEnumerate) (h : InvSt st1) :
    InvSt (listBranch st1 kind safe) := by
  have hitem : evOf (strL "    \\item " ++ safe) = none :=
    evOf_head ' ' (strL "   \\item " ++ safe) (by decide)
  have hbeg : evOf (beginStr kind) = some (LEv.beg kind) := by
    rcases hk with rfl | rfl <;> decide
  rcases hc1 : st1.cur with _ | k
  · -- no list open: open one of this kind, emit the item
    obtain ⟨_, hopen1⟩ := h
    rw [hc1] at hopen1
    simp only [listBranch, hc1]
    refine ⟨hk, ?_⟩
    refine ⟨levents st1.out, hopen1, ?_⟩
    rw [levents_snoc, levents_snoc, hbeg, hitem]
    simp
  · by_cases hkk : k ≠ kind
    · -- a list of another kind is open: close it, then open this kind
      obtain ⟨hpd, hcn, _⟩ := closeList_paired st1 h
      simp only [listBranch, hc1, if_pos hkk, hcn]
      refine ⟨hk, ?_⟩
      refine ⟨levents (closeList st1).out, hpd, ?_⟩
      rw [levents_snoc, levents_snoc, hbeg, hitem]
      simp
    · -- the same kind is open: just emit the item
      obtain ⟨hcur1, hopen1⟩ := h
      rw [hc1] at hcur1 hopen1
      obtain ⟨es0, hp, hes⟩ := hopen1
      simp only [listBranch, hc1, if_neg hkk]
      refine ⟨hcur1, ?_⟩
      refine ⟨es0, hp, ?_⟩
      rw [levents_snoc, hitem, hes]
      simp

theorem otherBranch_inv (lex : LatexTranspiler) (st2 : AsmSt) (kind rc : List Char)
    (h : InvSt st2) : InvSt (otherBranch lex st2 kind rc) := by
  obtain ⟨hcur, hopen⟩ := h
  unfold otherBranch
  split_ifs with h1 h2 h3
  · have hev : evOf (strL "\\[ " ++ transpile_math lex rc ++ strL " \\]") = none :=
      evOf_snd '[' (' ' :: transpile_math lex rc ++ strL " \\]") (by decide) (by decide)
    exact ⟨hcur, by rw [levents_snoc, hev]; simpa using hopen⟩
  · have hev : evOf (process_inline_math lex rc ++ strL "\n\n") = none :=
      evOf_nl _ (List.mem_append_right _ (by decide))
    exact ⟨hcur, by rw [levents_snoc, hev]; simpa using hopen⟩
  · have hs : ∃ k', kind = 's' :: k' := by
      have h3' := h3
      simp only [Bool.or_eq_true] at h3'
      rcases h3' with h' | h'
      · exact listPre_cons_ex 's' (strL "ection") kind h'
      · exact listPre_cons_ex 's' (strL "ub") kind h'
    obtain ⟨k', rfl⟩ := hs
    have hev : evOf ('\\' :: ('s' :: k') ++ '\x7b' :: process_inline_math lex rc ++ ['\x7d']) = none :=
      evOf_snd 's' (k' ++ '\x7b' :: process_inline_math lex rc ++ ['\x7d']) (by decide) (by decide)
    exact ⟨hcur, by rw [levents_snoc, hev]; simpa using hopen⟩
  · exact ⟨hcur, hopen⟩

theorem stepLine_inv (lex : LatexTranspiler) (st : AsmSt) (l : List Char) (h : InvSt st) :
    InvSt (stepLine lex st l) := by
  simp only [stepLine]
  split_ifs with htab hb
  · exact h
  · have hk : (detect_structure lex (trimWs l)).1 = kItemize ∨
        (detect_structure lex (trimWs l)).1 = kEnumerate := by
      have hb' := hb
      simp only [Bool.or_eq_true, decide_eq_true_eq] at hb'
      exact hb'
    exact listBranch_inv _ _ _ hk (flushTable_inv lex st h)
  · obtain ⟨hpd, hcn, _⟩ := closeList_paired _ (flushTable_inv lex st h)
    apply otherBranch_inv
    refine ⟨?_, ?_⟩
    · rw [hcn]; trivial
    · rw [hcn]; exact hpd

theorem runBody_inv (lex : LatexTranspiler) (lines : List (List Char)) (st : AsmSt)
    (h : InvSt st) : InvSt (lines.foldl (stepLine lex) st) := by
  induction lines generalizing st with
  | nil => exact h
  | cons a rest ih => exact ih _ (stepLine_inv lex st a h)

theorem levents_preamble (lex : LatexTranspiler) (title : List Char) :
    levents (preambleLines lex title) = [] := by
  have htitle : evOf (strL "\\title\x7b" ++ (process_inline_math lex title ++ ['\x7d'])) = none :=
    evOf_snd 't' (strL "itle\x7b" ++ (process_inline_math lex title ++ ['\x7d'])) (by decide) (by decide)
  have e1 : evOf (strL "\\documentclass\x7barticle\x7d") = none := by decide
  have e2 : evOf (strL "\\usepackage\x7bamsmath, amssymb\x7d") = none := by decide
  have e3 : evOf (strL "\\usepackage[utf8]\x7binputenc\x7d") = none := by decide
  have e4 : evOf (strL "\\usepackage\x7bxltabular\x7d") = none := by decide
  have e5 : evOf (strL "\\usepackage\x7bbooktabs\x7d") = none := by decide
  have e6 : evOf (strL "\\setlength\x7b\\parskip\x7d\x7b1em\x7d") = none := by decide
  have e7 : evOf (strL "\\author\x7b\x7d") = none := by decide
  have e8 : evOf (strL "\\date\x7b\\today\x7d") = none := by decide
  have e9 : evOf (strL "\\begin\x7bdocument\x7d") = none := by decide
  have e10 : evOf (strL "\\maketitle") = none := by decide
  cases hti : lex.include_title <;>
    simp [preambleLines, levents, hti, List.filterMap_append, List.filterMap_cons,
      e1, e2, e3, e4, e5, e6, e7, e8, e9, e10, htitle]

theorem assembleTail_paired (lex : LatexTranspiler) (fin : AsmSt) (h : InvSt fin) :
    PairedLists (levents (assembleTail lex fin)) := by
  obtain ⟨hcur, hopen⟩ := h
  have hdoc : evOf (strL "\\end\x7bdocument\x7d") = none := by decide
  have hflush : ∀ out1 : List (List Char), PairedLists (levents out1) →
      PairedLists (levents ((if fin.tbuf = [] then out1
        else out1 ++ [generate_table_block lex fin.tbuf]) ++ [strL "\\end\x7bdocument\x7d"])) := by
    intro out1 hp1
    by_cases ht : fin.tbuf = []
    · rw [if_pos ht, levents_snoc, hdoc]
      simpa using hp1
    · have hevt : evOf (generate_table_block lex fin.tbuf) = none := by
        rcases hbb : fin.tbuf with _ | ⟨r, rs⟩
        · exact absurd hbb ht
        · exact evOf_nl _ (hbb ▸ generate_table_nl lex r rs)
      rw [if_neg ht, levents_snoc, hdoc, levents_snoc, hevt]
      simpa using hp1
  unfold assembleTail
  rcases hc : fin.cur with _ | k
  · rw [hc] at hopen
    exact hflush fin.out hopen
  · rw [hc] at hopen hcur
    obtain ⟨es0, hp, hes⟩ := hopen
    have hcur' : k = kItemize ∨ k = kEnumerate := hcur
    have hev : evOf (endStr k) = some (LEv.fin k) := by
      rcases hcur' with rfl | rfl <;> decide
    apply hflush
    rw [levents_snoc, hes, hev]
    simpa [List.append_assoc] using paired_append_pair es0 hp k

/-- C6: the Assembler's list state machine keeps at most one list open, and
in the emitted buffer every `\begin{itemize}`/`\begin{enumerate}` directive
is immediately matched by its corresponding end directive before another
list begins or the document ends: the sequence of list-environment events of
`transpile`'s output is a concatenation of matched begin/end pairs, for
every configuration and every input. -/
theorem c6_list_invariant (lex : LatexTranspiler) (raw : List Char) :
    PairedLists (levents (transpileLines lex raw)) := by
  unfold transpileLines
  apply assembleTail_paired
  apply runBody_inv
  refine ⟨trivial, ?_⟩
  show PairedLists (levents (preambleLines lex _))
  rw [levents_preamble]
  exact PairedLists.nil

theorem replaceAll_single (c : Char) (r : List Char) :
    ∀ s : List Char, replaceAll [c] r s = s.flatMap (fun x => if x = c then r else [x])
  | [] => rfl
  | x :: xs => by
    by_cases hx : x = c
    · subst hx
      show replaceAllF (xs.length + 1) [x] r (x :: xs) = _
      simp [replaceAllF, listPre, ← replaceAll_single x r xs, replaceAll]
    · have hcx : ¬(c = x) := fun e => hx e.symm
      show replaceAllF (xs.length + 1) [c] r (x :: xs) = _
      simp [replaceAllF, listPre, hx, hcx, ← replaceAll_single c r xs, replaceAll]

theorem flatMap_skip (c : Char) (r : List Char) : ∀ l : List Char, c ∉ l →
    l.flatMap (fun x => if x = c then r else [x]) = l
  | [], _ => rfl
  | x :: xs, h => by
    have hx : ¬(x = c) := fun e => h (by rw [← e]; exact List.mem_cons_self x xs)
    simp [hx, flatMap_skip c r xs (fun m => h (List.mem_cons_of_mem x m))]

theorem flatMap_pure : ∀ l : List Char, (l.flatMap fun x => [x]) = l
  | [] => rfl
  | x :: xs => by simp [flatMap_pure xs]

theorem flatMap_flatMap (f g : Char → List Char) : ∀ l : List Char,
    (l.flatMap f).flatMap g = l.flatMap (fun x => (f x).flatMap g)
  | [] => rfl
  | x :: xs => by simp [flatMap_flatMap f g xs]

theorem length_one_ex (l : List Char) (h : l.length = 1) : ∃ d, l = [d] := by
  cases l with
  | nil => simp at h
  | cons a t =>
    cases t with
    | nil => exact ⟨a, rfl⟩
    | cons b t2 => simp at h

theorem applyEsc_skip (t : List (List Char × List Char)) (l : List Char)
    (h : ∀ p ∈ t, ∃ c, p.1 = [c] ∧ c ∉ l) : applyEsc t l = l := by
  induction t with
  | nil => rfl
  | cons p t ih =>
    obtain ⟨c, hc, hcl⟩ := h p (List.mem_cons_self p t)
    show applyEsc t (replaceAll p.1 p.2 l) = l
    rw [hc, replaceAll_single, flatMap_skip c p.2 l hcl]
    exact ih (fun q hq => h q (List.mem_cons_of_mem _ hq))

theorem applyEsc_flatMap (t : List (List Char × List Char)) :
    (∀ p ∈ t, p.1.length = 1) →
    ∀ s : List Char, applyEsc t s = s.flatMap (fun x => applyEsc t [x]) := by
  induction t with
  | nil =>
    intro _ s
    show s = s.flatMap fun x => [x]
    rw [flatMap_pure]
  | cons p t ih =>
    intro hs s
    obtain ⟨c, hc⟩ := length_one_ex p.1 (hs p (List.mem_cons_self p t))
    have hs' : ∀ q ∈ t, q.1.length = 1 := fun q hq => hs q (List.mem_cons_of_mem p hq)
    calc applyEsc (p :: t) s
        = applyEsc t (replaceAll p.1 p.2 s) := rfl
      _ = applyEsc t (s.flatMap (fun x => if x = c then p.2 else [x])) := by
          rw [hc, replaceAll_single]
      _ = (s.flatMap (fun x => if x = c then p.2 else [x])).flatMap (fun x => applyEsc t [x]) :=
          ih hs' _
      _ = s.flatMap (fun x => (if x = c then p.2 else [x]).flatMap (fun y => applyEsc t [y])) :=
          flatMap_flatMap _ _ s
      _ = s.flatMap (fun x => applyEsc (p :: t) [x]) := by
          apply List.flatMap_congr
          intro x _
          by_cases hx : x = c
          · rw [if_pos hx]
            show (p.2.flatMap fun y => applyEsc t [y]) = applyEsc t (replaceAll p.1 p.2 [x])
            rw [hc, replaceAll_single, ← ih hs' p.2]
            simp [hx]
          · rw [if_neg hx]
            show (([x] : List Char).flatMap fun y => applyEsc t [y]) =
              applyEsc t (replaceAll p.1 p.2 [x])
            rw [hc, replaceAll_single]
            simp [hx]

theorem not_mem_left_of_nodup_append_cons (l1 l2 : List (List Char)) (x : List Char)
    (h : (l1 ++ x :: l2).Nodup) : x ∉ l1 ∧ x ∉ l2 := by
  rw [List.nodup_append] at h
  obtain ⟨_, h2, hd⟩ := h
  exact ⟨fun hm => hd hm (List.mem_cons_self x l2), (List.nodup_cons.mp h2).1⟩

theorem applyEsc_mapped (t1 t2 : List (List Char × List Char)) (c : Char) (esc : List Char)
    (hmem : ([c], esc) ∈ t2)
    (hsing : ∀ p ∈ t1 ++ t2, p.1.length = 1)
    (hnd : ((t1 ++ t2).map Prod.fst).Nodup)
    (hesc : ∀ p ∈ t2, p.1 ≠ [c] → ∀ d ∈ p.1, d ∉ esc) :
    applyEsc (t1 ++ t2) [c] = esc := by
  obtain ⟨A, B, hAB⟩ := List.append_of_mem hmem
  subst hAB
  have hnd' : (((t1 ++ A).map Prod.fst) ++ [c] :: B.map Prod.fst).Nodup := by
    simpa [List.map_append, List.append_assoc] using hnd
  obtain ⟨hcA, hcB⟩ := not_mem_left_of_nodup_append_cons _ _ _ hnd'
  have h1 : applyEsc (t1 ++ A) [c] = [c] := by
    apply applyEsc_skip
    intro p hpin
    have hp12 : p ∈ t1 ++ (A ++ ([c], esc) :: B) := by
      rcases List.mem_append.mp hpin with h | h
      · exact List.mem_append_left _ h
      · exact List.mem_append_right _ (List.mem_append_left _ h)
    obtain ⟨d, hd⟩ := length_one_ex p.1 (hsing p hp12)
    refine ⟨d, hd, ?_⟩
    simp only [List.mem_singleton]
    rintro rfl
    exact hcA (hd ▸ List.mem_map_of_mem Prod.fst hpin)
  calc applyEsc (t1 ++ (A ++ ([c], esc) :: B)) [c]
      = applyEsc B (replaceAll [c] esc (applyEsc (t1 ++ A) [c])) := by
        simp only [applyEsc, List.foldl_append, List.foldl_cons]
    _ = applyEsc B esc := by
        rw [h1, replaceAll_single]
        simp
    _ = esc := by
        apply applyEsc_skip
        intro p hpB
        have hpt2 : p ∈ A ++ ([c], esc) :: B :=
          List.mem_append_right _ (List.mem_cons_of_mem _ hpB)
        obtain ⟨d, hd⟩ := length_one_ex p.1 (hsing p (List.mem_append_right _ hpt2))
        refine ⟨d, hd, ?_⟩
        apply hesc p hpt2
        · intro he
          exact hcB (he ▸ List.mem_map_of_mem Prod.fst hpB)
        · rw [hd]
          exact List.mem_singleton_self d

/-- C5 counterexample: the escaped forms of `~` and `^` contain the mapped
characters `{` and `}`, so applying the `{`/`}` replacements *after* the `~`
replacement double-escapes the braces the latter inserted: on input `~`, the
permutation that moves the `~` entry to the front yields
`\textasciitilde\{\}` instead of the implementation's `\textasciitilde{}`. -/
theorem c5_escape_order_counterexample :
    List.Perm
      [ (['~'], strL "\\textasciitilde\x7b\x7d"), (['&'], strL "\\&"), (['%'], strL "\\%"),
        (['$'], strL "\\$"), (['#'], strL "\\#"), (['_'], strL "\\_"), (['{'], strL "\\\x7b"),
        (['}'], strL "\\\x7d"), (['^'], strL "\\^\x7b\x7d") ] textSpecialCharsDefault ∧
    applyEsc
      [ (['~'], strL "\\textasciitilde\x7b\x7d"), (['&'], strL "\\&"), (['%'], strL "\\%"),
        (['$'], strL "\\$"), (['#'], strL "\\#"), (['_'], strL "\\_"), (['{'], strL "\\\x7b"),
        (['}'], strL "\\\x7d"), (['^'], strL "\\^\x7b\x7d") ] (strL "~") ≠
      sanitize_text defaultLex (strL "~") := by
  constructor
  · decide
  · decide

/-- C5 amended: the nine EscapeTable replacements may be reordered without
changing `sanitize`'s output *provided* the `{` and `}` replacements are
applied before the `~` and `^` replacements (whose escaped forms contain
braces); any permutation of that shape agrees with the implementation's
order on every input. -/
theorem c5_escape_order_amended (t1 t2 : List (List Char × List Char)) (s : List Char)
    (hp : List.Perm (t1 ++ t2) textSpecialCharsDefault)
    (hbo : (['{'], strL "\\\x7b") ∈ t1) (hbc : (['}'], strL "\\\x7d") ∈ t1)
    (hti : (['~'], strL "\\textasciitilde\x7b\x7d") ∈ t2)
    (hca : (['^'], strL "\\^\x7b\x7d") ∈ t2) :
    applyEsc (t1 ++ t2) s = sanitize_text defaultLex s := by
  have base1 : ∀ p ∈ textSpecialCharsDefault, p.1.length = 1 := by decide
  have hsing : ∀ p ∈ t1 ++ t2, p.1.length = 1 := fun p hpin => base1 p (hp.mem_iff.mp hpin)
  have hnd : ((t1 ++ t2).map Prod.fst).Nodup :=
    ((hp.map Prod.fst).nodup_iff).mpr (by decide)
  have hdisj : ∀ a ∈ t1.map Prod.fst, a ∉ t2.map Prod.fst := by
    have h2 := hnd
    rw [List.map_append, List.nodup_append] at h2
    exact fun a h1 h2m => h2.2.2 h1 h2m
  have hno_brace : ∀ p ∈ t2, p.1 ≠ ['{'] ∧ p.1 ≠ ['}'] := by
    intro p hpt2
    constructor
    · intro he
      exact hdisj ['{'] (List.mem_map_of_mem Prod.fst hbo)
        (he ▸ List.mem_map_of_mem Prod.fst hpt2)
    · intro he
      exact hdisj ['}'] (List.mem_map_of_mem Prod.fst hbc)
        (he ▸ List.mem_map_of_mem Prod.fst hpt2)
  have key : ∀ x : Char, applyEsc (t1 ++ t2) [x] = applyEsc textSpecialCharsDefault [x] := by
    intro x
    by_cases h9 : x = '&' ∨ x = '%' ∨ x = '$' ∨ x = '#' ∨ x = '_' ∨ x = '{' ∨ x = '}' ∨
        x = '~' ∨ x = '^'
    · have safeCase : ∀ c : Char, ∀ esc : List Char, x = c →
          ([c], esc) ∈ textSpecialCharsDefault →
          (∀ p ∈ textSpecialCharsDefault, p.1 ≠ [c] → ∀ d ∈ p.1, d ∉ esc) →
          applyEsc textSpecialCharsDefault [c] = esc →
          applyEsc (t1 ++ t2) [x] = applyEsc textSpecialCharsDefault [x] := by
        intro c esc hxc hm hbase hr
        subst hxc
        have hmem : ([x], esc) ∈ t1 ++ t2 := hp.mem_iff.mpr hm
        have hesc : ∀ p ∈ t1 ++ t2, p.1 ≠ [x] → ∀ d ∈ p.1, d ∉ esc :=
          fun p hpin => hbase p (hp.mem_iff.mp hpin)
        have hl := applyEsc_mapped [] (t1 ++ t2) x esc (by simpa using hmem)
          (by simpa using hsing) (by simpa using hnd) hesc
        rw [hr]
        simpa using hl
      have tailCase : ∀ c : Char, ∀ esc : List Char, x = c → (([c], esc) ∈ t2) →
          (∀ p ∈ textSpecialCharsDefault, p.1 ≠ [c] → p.1 ≠ ['{'] → p.1 ≠ ['}'] →
            ∀ d ∈ p.1, d ∉ esc) →
          applyEsc textSpecialCharsDefault [c] = esc →
          applyEsc (t1 ++ t2) [x] = applyEsc textSpecialCharsDefault [x] := by
        intro c esc hxc hm hbase hr
        subst hxc
        have hesc : ∀ p ∈ t2, p.1 ≠ [x] → ∀ d ∈ p.1, d ∉ esc := by
          intro p hpt2 hne
          exact hbase p (hp.mem_iff.mp (List.mem_append_right _ hpt2)) hne
            (hno_brace p hpt2).1 (hno_brace p hpt2).2
        have hl := applyEsc_mapped t1 t2 x esc hm hsing hnd hesc
        rw [hr]
        exact hl
      rcases h9 with rfl | rfl | rfl | rfl | rfl | rfl | rfl | rfl | rfl
      · exact safeCase _ (strL "\\&") rfl (by decide) (by decide) (by decide)
      · exact safeCase _ (strL "\\%") rfl (by decide) (by decide) (by decide)
      · exact safeCase _ (strL "\\$") rfl (by decide) (by decide) (by decide)
      · exact safeCase _ (strL "\\#") rfl (by decide) (by decide) (by decide)
      · exact safeCase _ (strL "\\_") rfl (by decide) (by decide) (by decide)
      · exact safeCase _ (strL "\\\x7b") rfl (by decide) (by decide) (by decide)
      · exact safeCase _ (strL "\\\x7d") rfl (by decide) (by decide) (by decide)
      · exact tailCase _ (strL "\\textasciitilde\x7b\x7d") rfl hti (by decide) (by decide)
      · exact tailCase _ (strL "\\^\x7b\x7d") rfl hca (by decide) (by decide)
    · push_neg at h9
      obtain ⟨n1, n2, n3, n4, n5, n6, n7, n8, n9⟩ := h9
      have hchars : ∀ p ∈ textSpecialCharsDefault, ∀ d ∈ p.1,
          d ∈ (['&', '%', '$', '#', '_', '{', '}', '~', '^'] : List Char) := by decide
      have hnox : ∀ p ∈ textSpecialCharsDefault, ∃ d, p.1 = [d] ∧ d ∉ ([x] : List Char) := by
        intro p hpin
        obtain ⟨d, hd⟩ := length_one_ex p.1 (base1 p hpin)
        refine ⟨d, hd, ?_⟩
        have hd9 := hchars p hpin d (by rw [hd]; exact List.mem_singleton_self d)
        simp only [List.mem_singleton]
        intro hdx
        subst hdx
        simp at hd9
        rcases hd9 with h | h | h | h | h | h | h | h | h
        · exact n1 h
        · exact n2 h
        · exact n3 h
        · exact n4 h
        · exact n5 h
        · exact n6 h
        · exact n7 h
        · exact n8 h
        · exact n9 h
      rw [applyEsc_skip _ [x] (fun p hpin => hnox p (hp.mem_iff.mp hpin)),
        applyEsc_skip _ [x] hnox]
  have hsingD : ∀ p ∈ textSpecialCharsDefault, p.1.length = 1 := base1
  show applyEsc (t1 ++ t2) s = applyEsc textSpecialCharsDefault s
  rw [applyEsc_flatMap _ hsing s, applyEsc_flatMap _ hsingD s]
  exact List.flatMap_congr (fun x _ => key x)

/-- C5 witness: a genuine non-identity permutation obeying the constraint
(the `&` and `%` entries swapped, braces still before `~` and `^`) agrees
with the implementation's order on the input `a~b{c`. -/
theorem c5_escape_order_witness :
    List.Perm
      ([ (['%'], strL "\\%"), (['&'], strL "\\&"), (['$'], strL "\\$"), (['#'], strL "\\#"),
         (['_'], strL "\\_"), (['{'], strL "\\\x7b"), (['}'], strL "\\\x7d") ] ++
       [ (['~'], strL "\\textasciitilde\x7b\x7d"), (['^'], strL "\\^\x7b\x7d") ])
      textSpecialCharsDefault ∧
    applyEsc
      ([ (['%'], strL "\\%"), (['&'], strL "\\&"), (['$'], strL "\\$"), (['#'], strL "\\#"),
         (['_'], strL "\\_"), (['{'], strL "\\\x7b"), (['}'], strL "\\\x7d") ] ++
       [ (['~'], strL "\\textasciitilde\x7b\x7d"), (['^'], strL "\\^\x7b\x7d") ])
      (strL "a~b\x7bc") = sanitize_text defaultLex (strL "a~b\x7bc") :=
  ⟨by decide,
   c5_escape_order_amended
     [ (['%'], strL "\\%"), (['&'], strL "\\&"), (['$'], strL "\\$"), (['#'], strL "\\#"),
       (['_'], strL "\\_"), (['{'], strL "\\\x7b"), (['}'], strL "\\\x7d") ]
     [ (['~'], strL "\\textasciitilde\x7b\x7d"), (['^'], strL "\\^\x7b\x7d") ]
     (strL "a~b\x7bc") (by decide) (by decide) (by decide) (by decide) (by decide)⟩
